import Mathlib

/-!
Verification of the thunderduck DuckDB extension core: wide-integer
primitives (wide_integer.hpp), Spark-style decimal division with
ROUND_HALF_UP (decimal_division.hpp), bind-time precision and scale
derivation (spark_precision.hpp), and the sum and average aggregate
accumulators (spark_aggregates.hpp).

Machine integers are embedded as Nat (for the unsigned 64, 128 and 256
bit types) and Int (for signed 128-bit values), with wrap-around written
explicitly as reduction modulo 2 ^ 64, 2 ^ 128 or 2 ^ 32 wherever the C
code can overflow.  Fallible results are Option.  All definitions are
executable.
-/

/-- 256-bit unsigned integer, two 128-bit halves, as in wide_integer.hpp.
Each half is a Nat that the operations below keep below 2 ^ 128. -/
structure uint256_t where
  hi : Nat
  lo : Nat
deriving DecidableEq

/-- Mul128 from wide_integer.hpp: schoolbook 64-bit-limb multiplication of
two unsigned 128-bit values into a 256-bit (hi, lo) pair.  Casts to
uint64_t are modeled as reduction mod 2 ^ 64, shifts and adds on unsigned
int128 wrap mod 2 ^ 128.  The carry detections (mid < p1) and (lo < p0)
mirror the wrap-around comparisons of the source. -/
def Mul128 (a b : Nat) : uint256_t :=
  let a_lo := a % 2 ^ 64
  let a_hi := a / 2 ^ 64 % 2 ^ 64
  let b_lo := b % 2 ^ 64
  let b_hi := b / 2 ^ 64 % 2 ^ 64
  -- four partial products, each fits in unsigned int128
  let p0 := a_lo * b_lo
  let p1 := a_lo * b_hi
  let p2 := a_hi * b_lo
  let p3 := a_hi * b_hi
  -- accumulate middle terms
  let mid := (p1 + p2) % 2 ^ 128
  let mid_carry := if mid < p1 then 2 ^ 64 else 0
  -- low 128 bits
  let lo := (p0 + mid * 2 ^ 64 % 2 ^ 128) % 2 ^ 128
  let lo_carry := if lo < p0 then 1 else 0
  -- high 128 bits
  let hi := (p3 + mid / 2 ^ 64 + mid_carry + lo_carry) % 2 ^ 128
  ⟨hi, lo⟩

/-- One 64-iteration pass of the binary long-division loop in Div256By128
(wide_integer.hpp).  Iteration with fuel = bit + 1 processes bit index
bit of the 64-bit word w.  The left shift of rem wraps mod 2 ^ 128
exactly as unsigned int128 does; the shifted value is even, so the
source operation rem |= 1 is addition of the extracted bit; quotient
bits are set at strictly decreasing fresh positions offset + bit, so the
source operation quot |= (1 << (bit + offset)) is addition of
2 ^ (offset + bit). -/
def divBits (w den offset : Nat) : Nat → Nat × Nat → Nat × Nat
  | 0, st => st
  | bit + 1, (quot, rem) =>
    let rem1 := 2 * rem % 2 ^ 128 + w / 2 ^ bit % 2
    if den ≤ rem1 then
      divBits w den offset bit (quot + 2 ^ (offset + bit), rem1 - den)
    else
      divBits w den offset bit (quot, rem1)

/-- Div256By128 from wide_integer.hpp: divide a 256-bit value by a 128-bit
divisor, returning (quotient, remainder).  The C function returns the
quotient and stores the remainder through a pointer; here both are
returned as a pair.  When num.hi = 0 a native 128-bit division is used;
otherwise (after D_ASSERT(num.hi < den), a release-build no-op) the 128
bits of num.lo are processed by two 64-iteration restoring-division
loops seeded with remainder num.hi, the first setting quotient bits
64..127, the second bits 0..63. -/
def Div256By128 (num : uint256_t) (den : Nat) : Nat × Nat :=
  if num.hi = 0 then
    (num.lo / den, num.lo % den)
  else
    let lo_hi := num.lo / 2 ^ 64 % 2 ^ 64
    let lo_lo := num.lo % 2 ^ 64
    let st := divBits lo_hi den 64 64 (0, num.hi)
    divBits lo_lo den 0 64 st

/-- MakeUint128 from wide_integer.hpp: (hi << 64) | lo.  The table only
passes lo arguments below 2 ^ 64, so the bitwise or of the disjoint
halves is addition. -/
def MakeUint128 (hi lo : Nat) : Nat :=
  hi * 2 ^ 64 + lo

/-- The constant lookup table of Pow10_128 (wide_integer.hpp),
entries 10 ^ 0 through 10 ^ 38, transcribed limb for limb. -/
def pow10Table : List Nat :=
  [MakeUint128 0 1,
   MakeUint128 0 10,
   MakeUint128 0 100,
   MakeUint128 0 1000,
   MakeUint128 0 10000,
   MakeUint128 0 100000,
   MakeUint128 0 1000000,
   MakeUint128 0 10000000,
   MakeUint128 0 100000000,
   MakeUint128 0 1000000000,
   MakeUint128 0 10000000000,
   MakeUint128 0 100000000000,
   MakeUint128 0 1000000000000,
   MakeUint128 0 10000000000000,
   MakeUint128 0 100000000000000,
   MakeUint128 0 1000000000000000,
   MakeUint128 0 10000000000000000,
   MakeUint128 0 100000000000000000,
   MakeUint128 0 1000000000000000000,
   MakeUint128 0 10000000000000000000,
   MakeUint128 5 7766279631452241920,
   MakeUint128 54 3875820019684212736,
   MakeUint128 542 1864712049423024128,
   MakeUint128 5421 200376420520689664,
   MakeUint128 54210 2003764205206896640,
   MakeUint128 542101 1590897978359414784,
   MakeUint128 5421010 15908979783594147840,
   MakeUint128 54210108 11515845246265065472,
   MakeUint128 542101086 4477988020393345024,
   MakeUint128 5421010862 7886392056514347008,
   MakeUint128 54210108624 5076944270305263616,
   MakeUint128 542101086242 13875954555633532928,
   MakeUint128 5421010862427 9632337040368467968,
   MakeUint128 54210108624275 4089650035136921600,
   MakeUint128 542101086242752 4003012203950112768,
   MakeUint128 5421010862427522 3136633892082024448,
   MakeUint128 54210108624275221 12919594847110692864,
   MakeUint128 542101086242752217 68739955140067328,
   MakeUint128 5421010862427522170 687399551400673280]

/-- Pow10_128 from wide_integer.hpp: O(1) table lookup of 10 ^ exp for
exp ≤ 38.  D_ASSERT(exp <= 38) is a release-build no-op; an
out-of-range index is an out-of-bounds read in C, modeled by the
getD default. -/
def Pow10_128 (exp : Nat) : Nat :=
  pow10Table.getD exp 0

/-- Reinterpretation of an unsigned 128-bit value as a signed two's
complement int128, as done by static_cast at the end of
SparkDecimalDivide. -/
def toInt128 (u : Nat) : Int :=
  if u < 2 ^ 127 then (u : Int) else (u : Int) - 2 ^ 128

/-- SparkDecimalDivide from decimal_division.hpp.  Signs are handled
separately from the magnitudes (Abs128 of a signed int128 in the valid
range is Int.natAbs); when pow10_val = 0 the magnitudes are divided
directly; otherwise the 128-bit product is attempted with
overflow detection (builtin mul_overflow reports the mathematical
product reaching 2 ^ 128 and leaves the truncated product), falling
back to the 256-bit Mul128 / Div256By128 pipeline.  ROUND_HALF_UP adds
one when twice the remainder (a wrapping uint128 multiply in C) reaches
the divisor.  The branchless sign step computes, per the source comment,
the two's complement negation of the quotient when exactly one operand
is negative. -/
def SparkDecimalDivide (a b : Int) (pow10_val : Nat) : Int :=
  let negative := decide (a < 0) != decide (b < 0)
  let abs_a := a.natAbs
  let abs_b := b.natAbs
  let qr : Nat × Nat :=
    if pow10_val = 0 then
      (abs_a / abs_b, abs_a % abs_b)
    else if abs_a * pow10_val < 2 ^ 128 then
      -- fast path: the product fits in 128 bits
      let scaled := abs_a * pow10_val % 2 ^ 128
      (scaled / abs_b, scaled % abs_b)
    else
      -- slow path: 256-bit intermediate
      Div256By128 (Mul128 abs_a pow10_val) abs_b
  let quotient := (qr.1 + if abs_b ≤ qr.2 * 2 % 2 ^ 128 then 1 else 0) % 2 ^ 128
  let result_unsigned := if negative then (2 ^ 128 - quotient) % 2 ^ 128 else quotient
  toInt128 result_unsigned

/-- Result type descriptor {precision, scale} from spark_precision.hpp. -/
structure SparkDecimalResult where
  precision : Nat
  scale : Nat
deriving DecidableEq

/-- ComputeDivisionType from spark_precision.hpp, the Spark decimal
division result-type rule.  All quantities are uint8 in C; for valid
decimal inputs (precision and scale at most 38) every intermediate stays
far below 256, so Nat arithmetic is exact, and the C subtractions only
occur when the subtrahend is no larger (p1 - s1 with s1 ≤ p1; 38 -
int_digits under the guard 38 > int_digits), matching Nat subtraction. -/
def ComputeDivisionType (p1 s1 p2 s2 : Nat) : SparkDecimalResult :=
  let result_scale := max 6 (s1 + p2 + 1)
  let result_precision := (p1 - s1) + s2 + result_scale
  if result_precision > 38 then
    let int_digits := result_precision - result_scale
    let min_scale := min result_scale 6
    let adjusted_scale :=
      if 38 > int_digits then max (38 - int_digits) min_scale else min_scale
    ⟨38, adjusted_scale⟩
  else
    ⟨result_precision, result_scale⟩

/-- ComputeSumType from spark_precision.hpp:
SUM(DECIMAL(p, s)) returns DECIMAL(min(p + 10, 38), s). -/
def ComputeSumType (p s : Nat) : SparkDecimalResult :=
  ⟨min (p + 10) 38, s⟩

/-- ComputeAvgType from spark_precision.hpp:
AVG(DECIMAL(p, s)) returns DECIMAL(min(p + 4, 38), min(s + 4, 18)),
with the scale further capped by the precision. -/
def ComputeAvgType (p s : Nat) : SparkDecimalResult :=
  let result_precision := min (p + 4) 38
  let result_scale := min (s + 4) 18
  ⟨result_precision, min result_scale result_precision⟩

/-- The scale_adj computation of BindSparkDecimalDiv
(thdck_spark_funcs_extension.cpp line 109): result.scale - s1 + s2 in
uint32 arithmetic, evaluated left to right; uint32 subtraction x - y for
x, y < 2 ^ 32 is (2 ^ 32 + x - y) % 2 ^ 32. -/
def BindScaleAdj (result_scale s1 s2 : Nat) : Nat :=
  ((2 ^ 32 + result_scale - s1) % 2 ^ 32 + s2) % 2 ^ 32

/-- Wrap an integer into the signed two's complement 128-bit range, the
behavior of DuckDB hugeint_t addition and multiplication overflow used
by the accumulator states. -/
def wrap128 (v : Int) : Int :=
  (v + 2 ^ 127) % 2 ^ 128 - 2 ^ 127

/-- static_cast<int64_t>(count) for an idx_t (uint64) count, as in the
ConstantOperation of the aggregates. -/
def toInt64 (n : Nat) : Int :=
  if n % 2 ^ 64 < 2 ^ 63 then (n % 2 ^ 64 : Nat) else (n % 2 ^ 64 : Nat) - 2 ^ 64

/-- SparkSumDecimalState from spark_aggregates.hpp: a 128-bit running
total (hugeint_t) and the isset flag. -/
structure SumState where
  value : Int
  isset : Bool
deriving DecidableEq

/-- SparkSumDecimalState::Initialize: isset = false, value = 0. -/
def sumInit : SumState :=
  ⟨0, false⟩

/-- SparkSumDecimalOperation::Operation: isset = true, value += input
(hugeint addition wraps mod 2 ^ 128). -/
def sumOp (st : SumState) (x : Int) : SumState :=
  ⟨wrap128 (st.value + x), true⟩

/-- SparkSumDecimalOperation::ConstantOperation: isset = true,
value += input * (int64_t)count, with the idx_t count cast through
int64_t and the hugeint product and sum wrapping mod 2 ^ 128. -/
def sumConstOp (st : SumState) (x : Int) (n : Nat) : SumState :=
  ⟨wrap128 (st.value + wrap128 (x * toInt64 n)), true⟩

/-- SparkSumDecimalState::Combine: if the source state isset, set isset
and add its value to the target; otherwise leave the target unchanged. -/
def SumState.combine (target source : SumState) : SumState :=
  if source.isset then ⟨wrap128 (target.value + source.value), true⟩ else target

/-- SparkSumDecimalOperation::Finalize on the canonical 128-bit result
width: an unset state returns no value (ReturnNull), otherwise the
total. -/
def sumFinalize (st : SumState) : Option Int :=
  if st.isset then some st.value else none

/-- SparkAvgDecimalState from spark_aggregates.hpp: 128-bit running sum
(hugeint_t) and uint64 row count, the count kept reduced mod 2 ^ 64. -/
structure AvgState where
  sum : Int
  count : Nat
deriving DecidableEq

/-- SparkAvgDecimalState::Initialize: count = 0, sum = 0. -/
def avgInit : AvgState :=
  ⟨0, 0⟩

/-- SparkAvgDecimalOperation::Operation: count++ (uint64 wraps),
sum += input (hugeint wraps). -/
def avgOp (st : AvgState) (x : Int) : AvgState :=
  ⟨wrap128 (st.sum + x), (st.count + 1) % 2 ^ 64⟩

/-- SparkAvgDecimalOperation::ConstantOperation: count += n (uint64
wraps), sum += input * (int64_t)n (hugeint wraps). -/
def avgConstOp (st : AvgState) (x : Int) (n : Nat) : AvgState :=
  ⟨wrap128 (st.sum + wrap128 (x * toInt64 n)), (st.count + n) % 2 ^ 64⟩

/-- SparkAvgDecimalState::Combine: count += other.count,
sum += other.sum. -/
def AvgState.combine (target source : AvgState) : AvgState :=
  ⟨wrap128 (target.sum + source.sum), (target.count + source.count) % 2 ^ 64⟩

/-- SparkAvgDecimalOperation::Finalize on the canonical 128-bit result
width: count = 0 returns no value; otherwise scale_adj = result_scale -
input_scale in uint32 arithmetic from the bind data (both fields uint8),
pow10_val = Pow10_128(scale_adj) when scale_adj > 0 else 0, and the
result is SparkDecimalDivide(sum, count, pow10_val) with the uint64
count reinterpreted as a (nonnegative) signed int128. -/
def avgFinalize (result_scale input_scale : Nat) (st : AvgState) : Option Int :=
  if st.count = 0 then
    none
  else
    let scale_adj := (2 ^ 32 + result_scale - input_scale) % 2 ^ 32
    let pow10_val := if 0 < scale_adj then Pow10_128 scale_adj else 0
    some (SparkDecimalDivide st.sum (st.count : Int) pow10_val)

/-- Round-half-up division of nonnegative magnitudes, the specification
formula of section 4.2 of the spec: the floor quotient, incremented by
one exactly when twice the remainder reaches the divisor, so that ties
round away from zero. -/
def roundHalfUpDiv (P B : Nat) : Nat :=
  P / B + if B ≤ 2 * (P % B) then 1 else 0

/-- Sequential accumulation of a list of rows into a freshly initialized
sum state via Operation, the reference order of claim C8. -/
def sumFold (rows : List Int) : SumState :=
  rows.foldl sumOp sumInit

/-- Sequential accumulation of a list of rows into a freshly initialized
average state via Operation. -/
def avgFold (rows : List Int) : AvgState :=
  rows.foldl avgOp avgInit

/-- A merge tree: leaves are arbitrary subsets of the input rows, inner
nodes merge the partial states of their children with Combine.  Trees
express every partition of the rows and every merge order. -/
inductive MergeTree where
  | leaf (part : List Int)
  | node (l r : MergeTree)

/-- The rows covered by a merge tree, in tree order. -/
def MergeTree.rows : MergeTree → List Int
  | .leaf p => p
  | .node l r => l.rows ++ r.rows

/-- Evaluate a merge tree with the sum accumulator: each leaf folds its
subset into a fresh state, each node combines the partial states
(target = left, source = right). -/
def MergeTree.evalSum : MergeTree → SumState
  | .leaf p => sumFold p
  | .node l r => l.evalSum.combine r.evalSum

/-- Evaluate a merge tree with the average accumulator. -/
def MergeTree.evalAvg : MergeTree → AvgState
  | .leaf p => avgFold p
  | .node l r => l.evalAvg.combine r.evalAvg

/-- Sum states reachable from Initialize by any sequence of Operation,
ConstantOperation and Combine calls, with inputs in the hugeint range
and run lengths in the idx_t range. -/
inductive ReachableSum : SumState → Prop where
  | init : ReachableSum sumInit
  | update (st : SumState) (x : Int) (hx : -(2 ^ 127) ≤ x ∧ x < 2 ^ 127)
      (h : ReachableSum st) : ReachableSum (sumOp st x)
  | run (st : SumState) (x : Int) (n : Nat) (hx : -(2 ^ 127) ≤ x ∧ x < 2 ^ 127)
      (hn : n < 2 ^ 64) (h : ReachableSum st) : ReachableSum (sumConstOp st x n)
  | combine (t s : SumState) (ht : ReachableSum t) (hs : ReachableSum s) :
      ReachableSum (t.combine s)

/-- Average states reachable from Initialize, as ReachableSum. -/
inductive ReachableAvg : AvgState → Prop where
  | init : ReachableAvg avgInit
  | update (st : AvgState) (x : Int) (hx : -(2 ^ 127) ≤ x ∧ x < 2 ^ 127)
      (h : ReachableAvg st) : ReachableAvg (avgOp st x)
  | run (st : AvgState) (x : Int) (n : Nat) (hx : -(2 ^ 127) ≤ x ∧ x < 2 ^ 127)
      (hn : n < 2 ^ 64) (h : ReachableAvg st) : ReachableAvg (avgConstOp st x n)
  | combine (t s : AvgState) (ht : ReachableAvg t) (hs : ReachableAvg s) :
      ReachableAvg (t.combine s)

/-- Average-state reachability instrumented with the true (unwrapped)
number of contributed rows: an Operation contributes one row, a
ConstantOperation contributes its run length, Combine adds the
contributions of both arguments. -/
inductive ReachableAvgN : AvgState → Nat → Prop where
  | init : ReachableAvgN avgInit 0
  | update (st : AvgState) (n : Nat) (x : Int) (hx : -(2 ^ 127) ≤ x ∧ x < 2 ^ 127)
      (h : ReachableAvgN st n) : ReachableAvgN (avgOp st x) (n + 1)
  | run (st : AvgState) (n : Nat) (x : Int) (c : Nat)
      (hx : -(2 ^ 127) ≤ x ∧ x < 2 ^ 127) (hc : c < 2 ^ 64)
      (h : ReachableAvgN st n) : ReachableAvgN (avgConstOp st x c) (n + c)
  | combine (t s : AvgState) (nt ns : Nat) (ht : ReachableAvgN t nt)
      (hs : ReachableAvgN s ns) : ReachableAvgN (t.combine s) (nt + ns)

/-! ## Helper lemmas on the wide-integer primitives -/

/-- Core identity of the 64-bit-limb schoolbook multiplication: the carry
propagation of Mul128, written out on the four partial products of limbs
below 2 ^ 64, reconstructs the exact 256-bit product. -/
theorem mul128_limbs (A1 A0 B1 B0 : Nat) (hA1 : A1 < 2 ^ 64) (hA0 : A0 < 2 ^ 64)
    (hB1 : B1 < 2 ^ 64) (hB0 : B0 < 2 ^ 64) :
    (A1 * B1 + (A0 * B1 + A1 * B0) % 2 ^ 128 / 2 ^ 64 +
        (if (A0 * B1 + A1 * B0) % 2 ^ 128 < A0 * B1 then 2 ^ 64 else 0) +
        (if (A0 * B0 + (A0 * B1 + A1 * B0) % 2 ^ 128 * 2 ^ 64 % 2 ^ 128) % 2 ^ 128 < A0 * B0
          then 1 else 0)) % 2 ^ 128 * 2 ^ 128 +
      (A0 * B0 + (A0 * B1 + A1 * B0) % 2 ^ 128 * 2 ^ 64 % 2 ^ 128) % 2 ^ 128 =
    (A1 * 2 ^ 64 + A0) * (B1 * 2 ^ 64 + B0) := by
  have key : (A1 * 2 ^ 64 + A0) * (B1 * 2 ^ 64 + B0) =
      A1 * B1 * 2 ^ 128 + (A0 * B1 + A1 * B0) * 2 ^ 64 + A0 * B0 := by ring
  have hab : (A1 * 2 ^ 64 + A0) * (B1 * 2 ^ 64 + B0) < 2 ^ 128 * 2 ^ 128 :=
    Nat.mul_lt_mul_of_lt_of_lt (by omega) (by omega)
  have hp0 : A0 * B0 < 2 ^ 128 := by
    calc A0 * B0 < 2 ^ 64 * 2 ^ 64 := Nat.mul_lt_mul_of_lt_of_lt hA0 hB0
    _ ≤ 2 ^ 128 := by norm_num
  have hp1 : A0 * B1 < 2 ^ 128 := by
    calc A0 * B1 < 2 ^ 64 * 2 ^ 64 := Nat.mul_lt_mul_of_lt_of_lt hA0 hB1
    _ ≤ 2 ^ 128 := by norm_num
  have hp2 : A1 * B0 < 2 ^ 128 := by
    calc A1 * B0 < 2 ^ 64 * 2 ^ 64 := Nat.mul_lt_mul_of_lt_of_lt hA1 hB0
    _ ≤ 2 ^ 128 := by norm_num
  have hp3 : A1 * B1 < 2 ^ 128 := by
    calc A1 * B1 < 2 ^ 64 * 2 ^ 64 := Nat.mul_lt_mul_of_lt_of_lt hA1 hB1
    _ ≤ 2 ^ 128 := by norm_num
  rw [key] at hab ⊢
  revert hp0 hp1 hp2 hp3 hab
  generalize A0 * B0 = p0
  generalize A0 * B1 = p1
  generalize A1 * B0 = p2
  generalize A1 * B1 = p3
  intro hp0 hp1 hp2 hp3 hab
  split_ifs <;> omega

/-- Exactness of Mul128 (claim C6, shared form): the (hi, lo) halves
reconstruct the mathematical product for all unsigned 128-bit inputs. -/
theorem Mul128_exact (a b : Nat) (ha : a < 2 ^ 128) (hb : b < 2 ^ 128) :
    (Mul128 a b).hi * 2 ^ 128 + (Mul128 a b).lo = a * b := by
  have haq : a / 2 ^ 64 < 2 ^ 64 := by
    apply Nat.div_lt_of_lt_mul
    calc a < 2 ^ 128 := ha
    _ = 2 ^ 64 * 2 ^ 64 := by norm_num
  have hbq : b / 2 ^ 64 < 2 ^ 64 := by
    apply Nat.div_lt_of_lt_mul
    calc b < 2 ^ 128 := hb
    _ = 2 ^ 64 * 2 ^ 64 := by norm_num
  have hhi : (Mul128 a b).hi =
      (a / 2 ^ 64 % 2 ^ 64 * (b / 2 ^ 64 % 2 ^ 64) +
        (a % 2 ^ 64 * (b / 2 ^ 64 % 2 ^ 64) + a / 2 ^ 64 % 2 ^ 64 * (b % 2 ^ 64)) % 2 ^ 128 / 2 ^ 64 +
        (if (a % 2 ^ 64 * (b / 2 ^ 64 % 2 ^ 64) + a / 2 ^ 64 % 2 ^ 64 * (b % 2 ^ 64)) % 2 ^ 128 <
            a % 2 ^ 64 * (b / 2 ^ 64 % 2 ^ 64) then 2 ^ 64 else 0) +
        (if (a % 2 ^ 64 * (b % 2 ^ 64) +
              (a % 2 ^ 64 * (b / 2 ^ 64 % 2 ^ 64) + a / 2 ^ 64 % 2 ^ 64 * (b % 2 ^ 64)) % 2 ^ 128 *
                2 ^ 64 % 2 ^ 128) % 2 ^ 128 < a % 2 ^ 64 * (b % 2 ^ 64) then 1 else 0)) % 2 ^ 128 := rfl
  have hlo : (Mul128 a b).lo =
      (a % 2 ^ 64 * (b % 2 ^ 64) +
        (a % 2 ^ 64 * (b / 2 ^ 64 % 2 ^ 64) + a / 2 ^ 64 % 2 ^ 64 * (b % 2 ^ 64)) % 2 ^ 128 *
          2 ^ 64 % 2 ^ 128) % 2 ^ 128 := rfl
  rw [hhi, hlo, Nat.mod_eq_of_lt haq, Nat.mod_eq_of_lt hbq]
  have expand : a * b = (a / 2 ^ 64 * 2 ^ 64 + a % 2 ^ 64) * (b / 2 ^ 64 * 2 ^ 64 + b % 2 ^ 64) := by
    have h1 : a / 2 ^ 64 * 2 ^ 64 + a % 2 ^ 64 = a := by omega
    have h2 : b / 2 ^ 64 * 2 ^ 64 + b % 2 ^ 64 = b := by omega
    rw [h1, h2]
  rw [expand]
  exact mul128_limbs (a / 2 ^ 64) (a % 2 ^ 64) (b / 2 ^ 64) (b % 2 ^ 64) haq
    (Nat.mod_lt _ (by norm_num)) hbq (Nat.mod_lt _ (by norm_num))

/-- The low half produced by Mul128 is a reduced 128-bit value. -/
theorem Mul128_lo_lt (a b : Nat) : (Mul128 a b).lo < 2 ^ 128 :=
  Nat.mod_lt _ (by norm_num)

/-- Exactness of one restoring-division pass of Div256By128: starting from
remainder rem < den and processing bits k - 1 .. 0 of the word w, the
pass adds the correct quotient digits at positions offset .. offset + k
- 1 and leaves the correct remainder.  Requires den ≤ 2 ^ 127 so that
the uint128 left shift of the running remainder cannot wrap. -/
theorem divBits_spec (w den offset : Nat) (hden : 0 < den) (hden2 : den ≤ 2 ^ 127) :
    ∀ (k : Nat) (quot rem : Nat), rem < den →
      divBits w den offset k (quot, rem) =
        (quot + 2 ^ offset * ((rem * 2 ^ k + w % 2 ^ k) / den),
         (rem * 2 ^ k + w % 2 ^ k) % den) := by
  intro k
  induction k with
  | zero =>
    intro quot rem hrem
    simp only [divBits, pow_zero, Nat.mul_one, Nat.mod_one, Nat.add_zero]
    rw [Nat.div_eq_of_lt hrem, Nat.mod_eq_of_lt hrem]
    simp
  | succ bit ih =>
    intro quot rem hrem
    have hnw : 2 * rem % 2 ^ 128 = 2 * rem := by
      apply Nat.mod_eq_of_lt
      omega
    have hsplit : w % 2 ^ (bit + 1) = w % 2 ^ bit + 2 ^ bit * (w / 2 ^ bit % 2) := by
      rw [pow_succ, Nat.mod_mul]
    have hbit : w / 2 ^ bit % 2 ≤ 1 := by omega
    simp only [divBits, hnw]
    set bv := w / 2 ^ bit % 2 with hbv
    have hkey : rem * 2 ^ (bit + 1) + w % 2 ^ (bit + 1) =
        (2 * rem + bv) * 2 ^ bit + w % 2 ^ bit := by
      rw [hsplit, pow_succ]
      ring
    split_ifs with hge
    · rw [ih _ _ (by omega)]
      have hq : (rem * 2 ^ (bit + 1) + w % 2 ^ (bit + 1)) / den =
          2 ^ bit + ((2 * rem + bv - den) * 2 ^ bit + w % 2 ^ bit) / den := by
        rw [hkey]
        have : (2 * rem + bv) * 2 ^ bit + w % 2 ^ bit =
            (2 * rem + bv - den) * 2 ^ bit + w % 2 ^ bit + den * 2 ^ bit := by
          rw [Nat.sub_mul]
          have : den * 2 ^ bit ≤ (2 * rem + bv) * 2 ^ bit :=
            Nat.mul_le_mul_right _ hge
          omega
        rw [this, Nat.add_mul_div_left _ _ hden]
        omega
      have hr : (rem * 2 ^ (bit + 1) + w % 2 ^ (bit + 1)) % den =
          ((2 * rem + bv - den) * 2 ^ bit + w % 2 ^ bit) % den := by
        rw [hkey]
        have : (2 * rem + bv) * 2 ^ bit + w % 2 ^ bit =
            (2 * rem + bv - den) * 2 ^ bit + w % 2 ^ bit + den * 2 ^ bit := by
          rw [Nat.sub_mul]
          have : den * 2 ^ bit ≤ (2 * rem + bv) * 2 ^ bit :=
            Nat.mul_le_mul_right _ hge
          omega
        rw [this, Nat.add_mul_mod_self_left]
      rw [hq, hr]
      ring_nf
    · rw [ih _ _ (by omega)]
      rw [hkey]

/-- Correctness of Div256By128 on its safe domain: for a nonzero divisor
that is at most 2 ^ 127 (so the restoring-division shift cannot wrap)
whose magnitude exceeds the high half of the numerator, the function
returns the exact 256-bit quotient and remainder. -/
theorem Div256By128_correct (num : uint256_t) (den : Nat) (hden : 0 < den)
    (hden2 : den ≤ 2 ^ 127) (hhi : num.hi < den) (hlo : num.lo < 2 ^ 128) :
    Div256By128 num den =
      ((num.hi * 2 ^ 128 + num.lo) / den, (num.hi * 2 ^ 128 + num.lo) % den) := by
  simp only [Div256By128]
  split_ifs with h0
  · rw [h0]
    norm_num
  · have hq64 : num.lo / 2 ^ 64 < 2 ^ 64 := by
      apply Nat.div_lt_of_lt_mul
      calc num.lo < 2 ^ 128 := hlo
      _ = 2 ^ 64 * 2 ^ 64 := by norm_num
    rw [Nat.mod_eq_of_lt hq64]
    rw [divBits_spec _ den 64 hden hden2 64 0 num.hi hhi]
    rw [Nat.mod_eq_of_lt hq64]
    set M := num.hi * 2 ^ 64 + num.lo / 2 ^ 64 with hM
    rw [divBits_spec _ den 0 hden hden2 64 _ _ (Nat.mod_lt _ hden)]
    have hmod64 : num.lo % 2 ^ 64 % 2 ^ 64 = num.lo % 2 ^ 64 := by omega
    rw [hmod64]
    have hN : num.hi * 2 ^ 128 + num.lo = M * 2 ^ 64 + num.lo % 2 ^ 64 := by
      rw [hM]
      have : num.lo = num.lo / 2 ^ 64 * 2 ^ 64 + num.lo % 2 ^ 64 := by omega
      ring_nf
      omega
    have hMsplit : M = den * (M / den) + M % den := (Nat.div_add_mod M den).symm
    have hNsplit : num.hi * 2 ^ 128 + num.lo =
        den * (M / den) * 2 ^ 64 + (M % den * 2 ^ 64 + num.lo % 2 ^ 64) := by
      rw [hN]
      calc M * 2 ^ 64 + num.lo % 2 ^ 64
          = (den * (M / den) + M % den) * 2 ^ 64 + num.lo % 2 ^ 64 := by rw [← hMsplit]
      _ = den * (M / den) * 2 ^ 64 + (M % den * 2 ^ 64 + num.lo % 2 ^ 64) := by ring
    have hqgoal : (num.hi * 2 ^ 128 + num.lo) / den =
        M / den * 2 ^ 64 + (M % den * 2 ^ 64 + num.lo % 2 ^ 64) / den := by
      rw [hNsplit]
      have h : den * (M / den) * 2 ^ 64 = den * (M / den * 2 ^ 64) := by ring
      rw [h, Nat.add_comm, Nat.add_mul_div_left _ _ hden]
      omega
    have hrgoal : (num.hi * 2 ^ 128 + num.lo) % den =
        (M % den * 2 ^ 64 + num.lo % 2 ^ 64) % den := by
      rw [hNsplit]
      have h : den * (M / den) * 2 ^ 64 = den * (M / den * 2 ^ 64) := by ring
      rw [h, Nat.add_comm, Nat.add_mul_mod_self_left]
    rw [hqgoal, hrgoal]
    simp only [Prod.mk.injEq]
    exact ⟨by ring, trivial⟩

/-- Full functional characterization of SparkDecimalDivide on the domain
where the rounded magnitude fits in the signed 128-bit result: the
returned value is the round-half-up quotient of the scaled magnitudes
with the xor of the operand signs reapplied.  The factor 1 stands in for
the power of ten when the caller passes pow = 0 to skip scaling. -/
theorem SparkDecimalDivide_spec (a b : Int) (pow : Nat)
    (ha : -(2 ^ 127) ≤ a ∧ a < 2 ^ 127) (hb : -(2 ^ 127) ≤ b ∧ b < 2 ^ 127)
    (hb0 : b ≠ 0) (hpow : pow < 2 ^ 128)
    (hQ : roundHalfUpDiv (a.natAbs * (if pow = 0 then 1 else pow)) b.natAbs < 2 ^ 127) :
    SparkDecimalDivide a b pow =
      if decide (a < 0) != decide (b < 0) then
        -(roundHalfUpDiv (a.natAbs * (if pow = 0 then 1 else pow)) b.natAbs : Int)
      else
        (roundHalfUpDiv (a.natAbs * (if pow = 0 then 1 else pow)) b.natAbs : Int) := by
  have hB : 0 < b.natAbs := Int.natAbs_pos.mpr hb0
  have hB2 : b.natAbs ≤ 2 ^ 127 := by omega
  have hA2 : a.natAbs ≤ 2 ^ 127 := by omega
  simp only [SparkDecimalDivide]
  have hqr : (if pow = 0 then
        (a.natAbs / b.natAbs, a.natAbs % b.natAbs)
      else if a.natAbs * pow < 2 ^ 128 then
        (a.natAbs * pow % 2 ^ 128 / b.natAbs, a.natAbs * pow % 2 ^ 128 % b.natAbs)
      else
        Div256By128 (Mul128 a.natAbs pow) b.natAbs) =
      (a.natAbs * (if pow = 0 then 1 else pow) / b.natAbs,
       a.natAbs * (if pow = 0 then 1 else pow) % b.natAbs) := by
    split_ifs with h1 h2
    · simp
    · rw [Nat.mod_eq_of_lt h2]
    · have hover : 2 ^ 128 ≤ a.natAbs * pow := by omega
      have hex := Mul128_exact a.natAbs pow (by omega) hpow
      have hlo := Mul128_lo_lt a.natAbs pow
      have hPdiv : a.natAbs * pow / b.natAbs < 2 ^ 127 := by
        have := hQ
        simp only [roundHalfUpDiv, if_neg h1] at this
        omega
      have hPlt : a.natAbs * pow < 2 ^ 127 * b.natAbs :=
        (Nat.div_lt_iff_lt_mul hB).mp hPdiv
      have hhi : (Mul128 a.natAbs pow).hi < b.natAbs := by omega
      rw [Div256By128_correct _ _ hB hB2 hhi hlo, hex]
  rw [hqr]
  simp only
  have hrem : a.natAbs * (if pow = 0 then 1 else pow) % b.natAbs * 2 % 2 ^ 128 =
      2 * (a.natAbs * (if pow = 0 then 1 else pow) % b.natAbs) := by
    have h1 : a.natAbs * (if pow = 0 then 1 else pow) % b.natAbs < b.natAbs :=
      Nat.mod_lt _ hB
    rw [Nat.mul_comm, Nat.mod_eq_of_lt (by omega)]
  rw [hrem]
  have hquot : (a.natAbs * (if pow = 0 then 1 else pow) / b.natAbs +
      if b.natAbs ≤ 2 * (a.natAbs * (if pow = 0 then 1 else pow) % b.natAbs) then 1 else 0) %
        2 ^ 128 =
      roundHalfUpDiv (a.natAbs * (if pow = 0 then 1 else pow)) b.natAbs := by
    rw [show (a.natAbs * (if pow = 0 then 1 else pow) / b.natAbs +
        if b.natAbs ≤ 2 * (a.natAbs * (if pow = 0 then 1 else pow) % b.natAbs) then 1 else 0) =
        roundHalfUpDiv (a.natAbs * (if pow = 0 then 1 else pow)) b.natAbs from rfl]
    exact Nat.mod_eq_of_lt (by omega)
  rw [hquot]
  cases hneg : (decide (a < 0) != decide (b < 0)) with
  | false =>
    simp only [Bool.false_eq_true, if_false]
    simp only [toInt128]
    rw [if_pos (by omega)]
  | true =>
    simp only [eq_self_iff_true, if_true]
    by_cases hz : roundHalfUpDiv (a.natAbs * (if pow = 0 then 1 else pow)) b.natAbs = 0
    · rw [hz]
      norm_num [toInt128]
    · have hlt : 2 ^ 128 - roundHalfUpDiv (a.natAbs * (if pow = 0 then 1 else pow)) b.natAbs <
          2 ^ 128 := by omega
      rw [Nat.mod_eq_of_lt hlt]
      simp only [toInt128]
      rw [if_neg (by omega)]
      have hle : roundHalfUpDiv (a.natAbs * (if pow = 0 then 1 else pow)) b.natAbs ≤ 2 ^ 128 := by
        omega
      omega

/-! ## Helper lemmas on the accumulator states -/

set_option maxRecDepth 10000

/-- Wrapping absorbs an inner wrap on the left summand. -/
theorem wrap128_wrap_add_left (a b : Int) : wrap128 (wrap128 a + b) = wrap128 (a + b) := by
  simp only [wrap128]
  omega

/-- Wrapping absorbs an inner wrap on the right summand. -/
theorem wrap128_wrap_add_right (a b : Int) : wrap128 (a + wrap128 b) = wrap128 (a + b) := by
  simp only [wrap128]
  omega

/-- Zero is a fixed point of the 128-bit wrap. -/
theorem wrap128_zero : wrap128 0 = 0 := by norm_num [wrap128]

/-- Values already in the signed 128-bit range are fixed by the wrap. -/
theorem wrap128_eq_self (v : Int) (h : -(2 ^ 127) ≤ v ∧ v < 2 ^ 127) : wrap128 v = v := by
  simp only [wrap128]
  omega

/-- The int64 cast of the zero run length is zero. -/
theorem toInt64_zero : toInt64 0 = 0 := by norm_num [toInt64]

/-- Folding rows into a sum state with a wrapped running value adds the
wrapped list sum and forces the isset flag on nonempty input. -/
theorem sumFoldFrom (l : List Int) : ∀ (v : Int) (fl : Bool),
    l.foldl sumOp ⟨wrap128 v, fl⟩ = ⟨wrap128 (v + l.sum), fl || !l.isEmpty⟩ := by
  induction l with
  | nil => intro v fl; simp [wrap128]
  | cons x xs ih =>
    intro v fl
    simp only [List.foldl_cons, sumOp]
    rw [wrap128_wrap_add_left]
    rw [ih (v + x) true]
    simp only [List.sum_cons, List.isEmpty_cons, Bool.not_false, Bool.or_true]
    congr 1
    ring_nf

/-- Closed characterization of the sequential sum fold: the wrapped list
sum together with the emptiness flag. -/
theorem sumFold_eq (l : List Int) : sumFold l = ⟨wrap128 l.sum, !l.isEmpty⟩ := by
  have h : sumInit = (⟨wrap128 0, false⟩ : SumState) := by
    simp [sumInit, wrap128_zero]
  rw [sumFold, h, sumFoldFrom]
  simp

/-- Folding rows into an average state adds the wrapped list sum and the
list length modulo 2 ^ 64. -/
theorem avgFoldFrom (l : List Int) : ∀ (v : Int) (c : Nat),
    l.foldl avgOp ⟨wrap128 v, c % 2 ^ 64⟩ =
      ⟨wrap128 (v + l.sum), (c + l.length) % 2 ^ 64⟩ := by
  induction l with
  | nil => intro v c; simp
  | cons x xs ih =>
    intro v c
    simp only [List.foldl_cons, avgOp]
    rw [wrap128_wrap_add_left]
    have hc : (c % 2 ^ 64 + 1) % 2 ^ 64 = (c + 1) % 2 ^ 64 := by omega
    rw [hc, ih (v + x) (c + 1)]
    simp only [List.sum_cons, List.length_cons]
    congr 2
    · ring_nf
    · omega

/-- Closed characterization of the sequential average fold. -/
theorem avgFold_eq (l : List Int) : avgFold l = ⟨wrap128 l.sum, l.length % 2 ^ 64⟩ := by
  have h : avgInit = (⟨wrap128 0, 0 % 2 ^ 64⟩ : AvgState) := by
    simp [avgInit, wrap128_zero]
  rw [avgFold, h, avgFoldFrom]
  simp

/-- A list with a nonempty right append part is nonempty. -/
theorem isEmpty_append_right (l1 l2 : List Int) (h : l2.isEmpty = false) :
    (l1 ++ l2).isEmpty = false := by
  cases l1 <;> cases l2 <;> simp_all

/-- Every merge tree evaluates, under the sum accumulator, to the wrapped
sum of all its rows with the emptiness flag of its row list: Combine of
partial states loses nothing against the sequential fold. -/
theorem evalSum_eq (t : MergeTree) : t.evalSum = ⟨wrap128 t.rows.sum, !t.rows.isEmpty⟩ := by
  induction t with
  | leaf p => exact sumFold_eq p
  | node l r ihl ihr =>
    simp only [MergeTree.evalSum, MergeTree.rows, ihl, ihr, SumState.combine]
    cases hrr : r.rows with
    | nil =>
      simp
    | cons y ys =>
      simp only [List.isEmpty_cons, Bool.not_false, if_true]
      rw [wrap128_wrap_add_left, wrap128_wrap_add_right]
      have h2 : (l.rows ++ y :: ys).isEmpty = false := isEmpty_append_right _ _ (by simp)
      simp [h2]

/-- Every merge tree evaluates, under the average accumulator, to the
wrapped sum and the wrapped count of all its rows. -/
theorem evalAvg_eq (t : MergeTree) :
    t.evalAvg = ⟨wrap128 t.rows.sum, t.rows.length % 2 ^ 64⟩ := by
  induction t with
  | leaf p => exact avgFold_eq p
  | node l r ihl ihr =>
    simp only [MergeTree.evalAvg, MergeTree.rows, ihl, ihr, AvgState.combine]
    rw [wrap128_wrap_add_left, wrap128_wrap_add_right]
    simp only [List.sum_append, List.length_append]
    congr 1
    omega

/-- The unset-implies-zero invariant of reachable sum states: every call
that sets a value also sets the flag, and Combine only merges set
sources, so an unset state still carries the initial zero. -/
theorem reachableSum_invariant (st : SumState) (h : ReachableSum st) :
    st.isset = false → st.value = 0 := by
  induction h with
  | init => intro; rfl
  | update st x hx h ih => intro hf; simp [sumOp] at hf
  | run st x n hx hn h ih => intro hf; simp [sumConstOp] at hf
  | combine t s ht hs iht ihs =>
    intro hf
    by_cases hss : s.isset = true
    · exfalso
      simp [SumState.combine, hss] at hf
    · have hss2 : s.isset = false := by
        cases hv : s.isset
        · rfl
        · exact absurd hv hss
      simp only [SumState.combine, hss2, Bool.false_eq_true, if_false] at hf ⊢
      exact iht hf

/-- The stored uint64 count of a reachable average state is the true
contribution count reduced mod 2 ^ 64. -/
theorem reachableAvgN_count (st : AvgState) (n : Nat) (h : ReachableAvgN st n) :
    st.count = n % 2 ^ 64 := by
  induction h with
  | init => rfl
  | update st n x hx h ih =>
    simp only [avgOp, ih]
    omega
  | run st n x c hx hc h ih =>
    simp only [avgConstOp, ih]
    omega
  | combine t s nt ns ht hs iht ihs =>
    simp only [AvgState.combine, iht, ihs]
    omega

/-- An average state reached with zero true contributions has sum zero. -/
theorem reachableAvgN_sum_zero (st : AvgState) (n : Nat) (h : ReachableAvgN st n) :
    n = 0 → st.sum = 0 := by
  induction h with
  | init => intro; rfl
  | update st n x hx h ih => intro h0; omega
  | run st n x c hx hc h ih =>
    intro h0
    have hn : n = 0 := by omega
    have hc0 : c = 0 := by omega
    subst hc0
    simp [avgConstOp, toInt64_zero, ih hn, wrap128_zero]
  | combine t s nt ns ht hs iht ihs =>
    intro h0
    have h1 : nt = 0 := by omega
    have h2 : ns = 0 := by omega
    simp [AvgState.combine, iht h1, ihs h2, wrap128_zero]

/-- Table fidelity: each Pow10_128 entry is the corresponding power of
ten. -/
theorem Pow10_128_eq (e : Nat) (he : e ≤ 38) : Pow10_128 e = 10 ^ e := by
  have h : ∀ n, n < 39 → Pow10_128 n = 10 ^ n := by decide
  exact h e (by omega)

/-! ## Claim theorems -/

/-- Claim C2 (code bug evaluation): with denominator 2 ^ 127 + 1 and
numerator hi = 2 ^ 127, lo = 0 — a denominator that is nonzero and
strictly exceeds the high half, so the documented precondition holds —
Div256By128 returns quotient 0 and remainder 0, while the exact
quotient is 2 ^ 128 - 2 (which fits in 128 bits) with remainder 2: the
left shift of the running remainder wraps mod 2 ^ 128 once the
remainder reaches 2 ^ 127, dropping its top bit. -/
theorem c2_div256by128_wrap_bug :
    Div256By128 ⟨2 ^ 127, 0⟩ (2 ^ 127 + 1) = (0, 0) ∧
      (2 ^ 127 * 2 ^ 128 + 0) / (2 ^ 127 + 1) = 2 ^ 128 - 2 ∧
      (2 ^ 127 * 2 ^ 128 + 0) % (2 ^ 127 + 1) = 2 := by
  decide

/-- Claim C4: for valid decimal operand types the division result scale
satisfies result_scale - s1 + s2 ≥ 0 (stated over Nat as
s1 ≤ result_scale + s2), and the uint32 left-to-right evaluation of
result_scale - s1 + s2 at the bind site equals that nonnegative value,
so the unsigned subtraction never wraps. -/
theorem c4_scale_adjustment_nonneg (p1 s1 p2 s2 : Nat)
    (hp1 : 1 ≤ p1 ∧ p1 ≤ 38) (hs1 : s1 ≤ p1) (hp2 : 1 ≤ p2 ∧ p2 ≤ 38) (hs2 : s2 ≤ p2) :
    s1 ≤ (ComputeDivisionType p1 s1 p2 s2).scale + s2 ∧
      BindScaleAdj (ComputeDivisionType p1 s1 p2 s2).scale s1 s2 =
        (ComputeDivisionType p1 s1 p2 s2).scale + s2 - s1 := by
  simp only [ComputeDivisionType, BindScaleAdj]
  split_ifs <;> simp only [] <;> constructor <;> omega

/-- Witness for claim C4 at the concrete operand types
DECIMAL(38, 38) / DECIMAL(38, 0). -/
theorem c4_scale_adjustment_nonneg_witness :
    (38 : Nat) ≤ (ComputeDivisionType 38 38 38 0).scale + 0 ∧
      BindScaleAdj (ComputeDivisionType 38 38 38 0).scale 38 0 =
        (ComputeDivisionType 38 38 38 0).scale + 0 - 38 :=
  c4_scale_adjustment_nonneg 38 38 38 0 (by decide) (by decide) (by decide) (by decide)

/-- Claim C5: for valid input types all three result-type rules return a
descriptor with precision at most 38 and scale at most the precision,
and in particular ComputeSumType 38 0 = {38, 0} and
ComputeAvgType 38 18 = {38, 18}. -/
theorem c5_result_types_valid (p1 s1 p2 s2 p s pa sa : Nat)
    (hdiv : 1 ≤ p1 ∧ p1 ≤ 38 ∧ s1 ≤ p1 ∧ 1 ≤ p2 ∧ p2 ≤ 38 ∧ s2 ≤ p2)
    (hsum : 1 ≤ p ∧ p ≤ 38 ∧ s ≤ p) (havg : 1 ≤ pa ∧ pa ≤ 38 ∧ sa ≤ pa) :
    ((ComputeDivisionType p1 s1 p2 s2).precision ≤ 38 ∧
      (ComputeDivisionType p1 s1 p2 s2).scale ≤ (ComputeDivisionType p1 s1 p2 s2).precision) ∧
    ((ComputeSumType p s).precision ≤ 38 ∧
      (ComputeSumType p s).scale ≤ (ComputeSumType p s).precision) ∧
    ((ComputeAvgType pa sa).precision ≤ 38 ∧
      (ComputeAvgType pa sa).scale ≤ (ComputeAvgType pa sa).precision) ∧
    ComputeSumType 38 0 = ⟨38, 0⟩ ∧ ComputeAvgType 38 18 = ⟨38, 18⟩ := by
  refine ⟨?_, ?_, ?_, by decide, by decide⟩
  · simp only [ComputeDivisionType]
    split_ifs <;> simp only [] <;> constructor <;> omega
  · simp only [ComputeSumType]
    constructor <;> omega
  · simp only [ComputeAvgType]
    constructor <;> omega

/-- Witness for claim C5 at DECIMAL(38, 6) / DECIMAL(20, 3) operands and
DECIMAL(38, 0), DECIMAL(38, 18) aggregate inputs. -/
theorem c5_result_types_valid_witness :
    ((ComputeDivisionType 38 6 20 3).precision ≤ 38 ∧
      (ComputeDivisionType 38 6 20 3).scale ≤ (ComputeDivisionType 38 6 20 3).precision) ∧
    ((ComputeSumType 38 0).precision ≤ 38 ∧
      (ComputeSumType 38 0).scale ≤ (ComputeSumType 38 0).precision) ∧
    ((ComputeAvgType 38 18).precision ≤ 38 ∧
      (ComputeAvgType 38 18).scale ≤ (ComputeAvgType 38 18).precision) ∧
    ComputeSumType 38 0 = ⟨38, 0⟩ ∧ ComputeAvgType 38 18 = ⟨38, 18⟩ :=
  c5_result_types_valid 38 6 20 3 38 0 38 18 (by decide) (by decide) (by decide)

/-- Claim C6: Mul128 returns the mathematically exact 256-bit product for
every pair of unsigned 128-bit inputs, carries included. -/
theorem c6_mul128_exact (a b : Nat) (ha : a < 2 ^ 128) (hb : b < 2 ^ 128) :
    (Mul128 a b).hi * 2 ^ 128 + (Mul128 a b).lo = a * b :=
  Mul128_exact a b ha hb

/-- Witness for claim C6 on inputs whose middle partial products carry
into the high half. -/
theorem c6_mul128_exact_witness :
    (2 ^ 127 + 987654321 : Nat) < 2 ^ 128 ∧ (2 ^ 127 + 123 : Nat) < 2 ^ 128 ∧
      (Mul128 (2 ^ 127 + 987654321) (2 ^ 127 + 123)).hi * 2 ^ 128 +
        (Mul128 (2 ^ 127 + 987654321) (2 ^ 127 + 123)).lo =
      (2 ^ 127 + 987654321) * (2 ^ 127 + 123) :=
  ⟨by decide, by decide, c6_mul128_exact _ _ (by decide) (by decide)⟩

/-- Claim C7: whenever the scaled magnitude fits in 128 bits, the fast
path quotient and remainder coincide exactly with the slow path through
Mul128 and Div256By128, so SparkDecimalDivide returns the same value on
either branch.  The product fits, so Mul128 yields hi = 0 and
Div256By128 reduces to the same native 128-bit division. -/
theorem c7_fast_slow_equivalence (A B e : Nat) (hB : 0 < B) (he : e ≤ 38)
    (hfits : A * 10 ^ e < 2 ^ 128) :
    (A * 10 ^ e % 2 ^ 128 / B, A * 10 ^ e % 2 ^ 128 % B) =
      Div256By128 (Mul128 A (10 ^ e)) B := by
  have h1 : 1 ≤ 10 ^ e := Nat.one_le_pow _ _ (by norm_num)
  have hA : A < 2 ^ 128 := by
    have h2 : A ≤ A * 10 ^ e := Nat.le_mul_of_pos_right A h1
    omega
  have hpow : (10 : Nat) ^ e < 2 ^ 128 := by
    calc (10 : Nat) ^ e ≤ 10 ^ 38 := Nat.pow_le_pow_right (by norm_num) he
    _ < 2 ^ 128 := by norm_num
  have hex := Mul128_exact A (10 ^ e) hA hpow
  have hlo := Mul128_lo_lt A (10 ^ e)
  have hhi0 : (Mul128 A (10 ^ e)).hi = 0 := by
    by_contra hne
    have : 1 ≤ (Mul128 A (10 ^ e)).hi := by omega
    have : 2 ^ 128 ≤ (Mul128 A (10 ^ e)).hi * 2 ^ 128 := by
      calc (2 : Nat) ^ 128 = 1 * 2 ^ 128 := by ring
      _ ≤ (Mul128 A (10 ^ e)).hi * 2 ^ 128 := Nat.mul_le_mul_right _ this
    omega
  have hloP : (Mul128 A (10 ^ e)).lo = A * 10 ^ e := by omega
  rw [Nat.mod_eq_of_lt hfits]
  simp only [Div256By128]
  rw [if_pos hhi0, hloP]

/-- Witness for claim C7 at A = 5, e = 1, B = 3. -/
theorem c7_fast_slow_equivalence_witness :
    (0 : Nat) < 3 ∧ (1 : Nat) ≤ 38 ∧ (5 * 10 ^ 1 : Nat) < 2 ^ 128 ∧
      (5 * 10 ^ 1 % 2 ^ 128 / 3, 5 * 10 ^ 1 % 2 ^ 128 % 3) =
        Div256By128 (Mul128 5 (10 ^ 1)) 3 :=
  ⟨by decide, by decide, by decide,
    c7_fast_slow_equivalence 5 3 1 (by decide) (by decide) (by decide)⟩

/-- Claim C3, counterexample: at |a| = 10 ^ 38 - 1, |b| = 1, e = 38 —
inside the claimed domain, with the scaled magnitude overflowing 128
bits — the high half of the 256-bit product is not below |b|, so the
D_ASSERT in Div256By128 is violated and the claimed precondition fails. -/
theorem c3_cex :
    (10 ^ 38 - 1 : Nat) < 10 ^ 38 ∧ (1 : Nat) ≤ 1 ∧ (1 : Nat) < 10 ^ 38 ∧
      (38 : Nat) ≤ 38 ∧ 2 ^ 128 ≤ (10 ^ 38 - 1) * 10 ^ 38 ∧
      ¬ (Mul128 (10 ^ 38 - 1) (10 ^ 38)).hi < 1 := by
  decide

/-- Claim C3, amended: the slow-path precondition hi < |b| holds for all
decimal magnitudes with overflowing scaled product provided additionally
that the true quotient fits in 128 bits, that is |a| * 10 ^ e <
|b| * 2 ^ 128; the counterexample shows the extra bound is necessary. -/
theorem c3_slow_path_precondition (A B e : Nat) (hA : A < 10 ^ 38) (hB : 1 ≤ B)
    (he : e ≤ 38) (hover : 2 ^ 128 ≤ A * 10 ^ e) (hfit : A * 10 ^ e < B * 2 ^ 128) :
    (Mul128 A (10 ^ e)).hi < B := by
  have hA2 : A < 2 ^ 128 := by
    calc A < 10 ^ 38 := hA
    _ < 2 ^ 128 := by norm_num
  have hpow : (10 : Nat) ^ e < 2 ^ 128 := by
    calc (10 : Nat) ^ e ≤ 10 ^ 38 := Nat.pow_le_pow_right (by norm_num) he
    _ < 2 ^ 128 := by norm_num
  have hex := Mul128_exact A (10 ^ e) hA2 hpow
  have hlo := Mul128_lo_lt A (10 ^ e)
  omega

/-- Witness for the amended claim C3 at |a| = 10 ^ 38 - 1, e = 38,
|b| = 10 ^ 38 - 1. -/
theorem c3_slow_path_precondition_witness :
    2 ^ 128 ≤ (10 ^ 38 - 1 : Nat) * 10 ^ 38 ∧
      (10 ^ 38 - 1 : Nat) * 10 ^ 38 < (10 ^ 38 - 1) * 2 ^ 128 ∧
      (Mul128 (10 ^ 38 - 1) (10 ^ 38)).hi < 10 ^ 38 - 1 :=
  ⟨by decide, by decide,
    c3_slow_path_precondition (10 ^ 38 - 1) (10 ^ 38 - 1) 38 (by decide) (by decide)
      (by decide) (by decide) (by decide)⟩

/-- Claim C10, counterexample: the average-state invariant count = 0 →
sum = 0 fails on reachable states because the uint64 count wraps: two
ConstantOperation calls with run length 2 ^ 63 and input 1 drive the
count to 0 while the sum (through the int64 cast of the run length,
which is negative here) reaches -(2 ^ 64). -/
theorem c10_cex :
    ¬ ∀ (st : AvgState) (n : Nat), ReachableAvgN st n → st.count = 0 → st.sum = 0 := by
  intro h
  have h1 : ReachableAvgN (avgConstOp avgInit 1 (2 ^ 63)) (0 + 2 ^ 63) :=
    .run _ _ _ _ (by decide) (by decide) .init
  have h2 : ReachableAvgN (avgConstOp (avgConstOp avgInit 1 (2 ^ 63)) 1 (2 ^ 63))
      (0 + 2 ^ 63 + 2 ^ 63) :=
    .run _ _ _ _ (by decide) (by decide) h1
  have h3 := h _ _ h2 (by decide)
  rw [show (avgConstOp (avgConstOp avgInit 1 (2 ^ 63)) 1 (2 ^ 63)).sum = -(2 ^ 64) from by
    decide] at h3
  exact absurd h3 (by decide)

/-- Claim C10, amended: every reachable sum state satisfies isset = false
→ value = 0 exactly as claimed, and every reachable average state
satisfies count = 0 → sum = 0 provided the total number of contributed
rows stays below 2 ^ 64 (the counterexample shows the bound is needed
once the uint64 count can wrap). -/
theorem c10_state_invariants (st : SumState) (st2 : AvgState) (n : Nat)
    (h : ReachableSum st) (h2 : ReachableAvgN st2 n) (hn : n < 2 ^ 64) :
    (st.isset = false → st.value = 0) ∧ (st2.count = 0 → st2.sum = 0) := by
  refine ⟨reachableSum_invariant st h, ?_⟩
  intro hc
  have hcount := reachableAvgN_count st2 n h2
  have hn0 : n = 0 := by omega
  exact reachableAvgN_sum_zero st2 n h2 hn0

/-- Witness for the amended claim C10 on freshly initialized states. -/
theorem c10_state_invariants_witness :
    (sumInit.isset = false → sumInit.value = 0) ∧
      (avgInit.count = 0 → avgInit.sum = 0) :=
  c10_state_invariants sumInit avgInit 0 .init .init (by decide)

/-- Claim C8: Combine is associative and commutative in the required
sense — for any multiset of rows, any partition into subsets and any
merge order (expressed as an arbitrary merge tree over an arbitrary
permutation of the rows), accumulating each subset via Update into a
fresh state and merging the partial states with Combine yields exactly
the state of folding all rows sequentially, for both the sum and the
average accumulator. -/
theorem c8_combine_partition_equiv (t : MergeTree) (rows : List Int)
    (hperm : t.rows.Perm rows) :
    t.evalSum = sumFold rows ∧ t.evalAvg = avgFold rows := by
  have hsum := List.Perm.sum_eq hperm
  have hlen := hperm.length_eq
  have hemp : t.rows.isEmpty = rows.isEmpty := by
    cases h1 : t.rows <;> cases h2 : rows <;> simp_all
  constructor
  · rw [evalSum_eq, sumFold_eq, hsum, hemp]
  · rw [evalAvg_eq, avgFold_eq, hsum, hlen]

/-- Witness for claim C8: the partition {[1, 2], [], [3]} of the rows
[1, 2, 3], merged through a two-level tree. -/
theorem c8_combine_partition_equiv_witness :
    (MergeTree.node (.leaf [1, 2]) (.node (.leaf []) (.leaf [3]))).rows.Perm [1, 2, 3] ∧
      (MergeTree.node (.leaf [1, 2]) (.node (.leaf []) (.leaf [3]))).evalSum =
        sumFold [1, 2, 3] ∧
      (MergeTree.node (.leaf [1, 2]) (.node (.leaf []) (.leaf [3]))).evalAvg =
        avgFold [1, 2, 3] := by
  have hperm : (MergeTree.node (.leaf [1, 2]) (.node (.leaf []) (.leaf [3]))).rows.Perm
      [1, 2, 3] := List.Perm.refl _
  have h := c8_combine_partition_equiv _ _ hperm
  exact ⟨hperm, h.1, h.2⟩

/-- Claim C1, counterexample: at a = -(2 ^ 127), b = -1, e = 0 the claim
predicts round_half_up(|a| * 10 ^ 0 / |b|) = 2 ^ 127 with positive sign
(both operands negative), but the code returns -(2 ^ 127): the rounded
magnitude does not fit the signed 128-bit result, so the final
two's complement reinterpretation flips it. -/
theorem c1_cex :
    SparkDecimalDivide (-(2 ^ 127)) (-1) 0 ≠
      (roundHalfUpDiv ((-(2 ^ 127) : Int)).natAbs ((-1 : Int)).natAbs : Int) := by
  decide

/-- Claim C1, amended: for every signed 128-bit a, nonzero signed 128-bit
b and exponent e ≤ 38 (the power passed as 0 when e = 0), provided the
rounded magnitude round_half_up(|a| * 10 ^ e / |b|) fits below 2 ^ 127,
SparkDecimalDivide returns that magnitude with the xor of the operand
signs reapplied, ties rounding away from zero; the counterexample shows
the fits bound is necessary. -/
theorem c1_divide_round_half_up (a b : Int) (e : Nat)
    (ha : -(2 ^ 127) ≤ a ∧ a < 2 ^ 127) (hb : -(2 ^ 127) ≤ b ∧ b < 2 ^ 127)
    (hb0 : b ≠ 0) (he : e ≤ 38)
    (hfit : roundHalfUpDiv (a.natAbs * 10 ^ e) b.natAbs < 2 ^ 127) :
    SparkDecimalDivide a b (if e = 0 then 0 else 10 ^ e) =
      if decide (a < 0) != decide (b < 0) then
        -(roundHalfUpDiv (a.natAbs * 10 ^ e) b.natAbs : Int)
      else
        (roundHalfUpDiv (a.natAbs * 10 ^ e) b.natAbs : Int) := by
  have hpow : (if e = 0 then 0 else 10 ^ e) < 2 ^ 128 := by
    split_ifs
    · norm_num
    · calc (10 : Nat) ^ e ≤ 10 ^ 38 := Nat.pow_le_pow_right (by norm_num) he
      _ < 2 ^ 128 := by norm_num
  have hsimp : (if (if e = 0 then 0 else 10 ^ e) = 0 then 1
      else if e = 0 then 0 else 10 ^ e) = 10 ^ e := by
    by_cases h : e = 0
    · subst h
      simp
    · rw [if_neg h, if_neg (pow_ne_zero e (by norm_num))]
  have hkey := SparkDecimalDivide_spec a b (if e = 0 then 0 else 10 ^ e) ha hb hb0 hpow
    (by rw [hsimp]; exact hfit)
  rw [hsimp] at hkey
  exact hkey

/-- Witness for the amended claim C1 at the three spec examples:
5 / 2 rounds to 3, -5 / 2 rounds to -3 (ties away from zero), and
100 / 3 truncates to 33, all with e = 0. -/
theorem c1_divide_round_half_up_witness :
    SparkDecimalDivide 5 2 0 = 3 ∧ SparkDecimalDivide (-5) 2 0 = -3 ∧
      SparkDecimalDivide 100 3 0 = 33 := by
  refine ⟨?_, ?_, ?_⟩
  · have h := c1_divide_round_half_up 5 2 0 (by decide) (by decide) (by decide) (by decide)
      (by decide)
    simpa [roundHalfUpDiv] using h
  · have h := c1_divide_round_half_up (-5) 2 0 (by decide) (by decide) (by decide) (by decide)
      (by decide)
    simpa [roundHalfUpDiv] using h
  · have h := c1_divide_round_half_up 100 3 0 (by decide) (by decide) (by decide) (by decide)
      (by decide)
    simpa [roundHalfUpDiv] using h

/-- Claim C9: a state with zero non-null contributions finalizes to no
value for both spark_sum (isset = false) and spark_avg (count = 0); a
state holding exactly one contributed value v finalizes spark_sum to v,
and spark_avg to SparkDecimalDivide(v, 1, 10 ^ scale_adj) =
v * 10 ^ scale_adj, v represented exactly at the result scale, where
scale_adj = result_scale - input_scale from the bind data. -/
theorem c9_finalize_null_and_single (v : Int) (rs isc : Nat)
    (hv : -(2 ^ 127) ≤ v ∧ v < 2 ^ 127)
    (hsc : isc ≤ rs ∧ rs ≤ 255) (hadj : rs - isc ≤ 38)
    (hfit : v.natAbs * 10 ^ (rs - isc) < 2 ^ 127) :
    (∀ st : SumState, st.isset = false → sumFinalize st = none) ∧
    (∀ st : AvgState, st.count = 0 → avgFinalize rs isc st = none) ∧
    sumFinalize (sumOp sumInit v) = some v ∧
    avgFinalize rs isc (avgOp avgInit v) = some (v * 10 ^ (rs - isc)) := by
  refine ⟨fun st h => by simp [sumFinalize, h], fun st h => by simp [avgFinalize, h], ?_, ?_⟩
  · have hstate : sumOp sumInit v = ⟨wrap128 v, true⟩ := by
      simp [sumOp, sumInit]
    rw [hstate]
    show some (wrap128 v) = some v
    rw [wrap128_eq_self v hv]
  · have hstate : avgOp avgInit v = ⟨wrap128 v, 1⟩ := by
      norm_num [avgOp, avgInit]
    rw [hstate]
    simp only [avgFinalize]
    rw [if_neg (by norm_num)]
    have hadj2 : (2 ^ 32 + rs - isc) % 2 ^ 32 = rs - isc := by omega
    rw [hadj2, wrap128_eq_self v hv]
    have hp : Pow10_128 (rs - isc) = 10 ^ (rs - isc) := Pow10_128_eq _ hadj
    have hfactor : (if (if 0 < rs - isc then Pow10_128 (rs - isc) else 0) = 0 then 1
        else if 0 < rs - isc then Pow10_128 (rs - isc) else 0) = 10 ^ (rs - isc) := by
      by_cases hd : 0 < rs - isc
      · rw [if_pos hd, hp]
        rw [if_neg (pow_ne_zero _ (by norm_num))]
      · rw [if_neg hd, if_pos rfl]
        have : rs - isc = 0 := by omega
        rw [this]
        norm_num
    have hpowlt : (if 0 < rs - isc then Pow10_128 (rs - isc) else 0) < 2 ^ 128 := by
      split_ifs
      · rw [hp]
        calc (10 : Nat) ^ (rs - isc) ≤ 10 ^ 38 := Nat.pow_le_pow_right (by norm_num) hadj
        _ < 2 ^ 128 := by norm_num
      · norm_num
    have hQ : roundHalfUpDiv
        (v.natAbs * (if (if 0 < rs - isc then Pow10_128 (rs - isc) else 0) = 0 then 1
          else if 0 < rs - isc then Pow10_128 (rs - isc) else 0)) (1 : Int).natAbs < 2 ^ 127 := by
      rw [hfactor]
      simp only [Int.natAbs_one, roundHalfUpDiv, Nat.mod_one, Nat.div_one]
      simpa using hfit
    have hspec := SparkDecimalDivide_spec v 1
      (if 0 < rs - isc then Pow10_128 (rs - isc) else 0) hv (by norm_num) (by norm_num)
      hpowlt hQ
    rw [hfactor] at hspec
    simp only [Int.natAbs_one] at hspec
    have hone : decide ((1 : Int) < 0) = false := rfl
    rw [hone, Bool.bne_false] at hspec
    have hround : roundHalfUpDiv (v.natAbs * 10 ^ (rs - isc)) 1 =
        v.natAbs * 10 ^ (rs - isc) := by
      simp [roundHalfUpDiv, Nat.mod_one, Nat.div_one]
    rw [hround] at hspec
    have hcast : ((1 : Nat) : Int) = 1 := by norm_num
    rw [hcast, hspec]
    rcases le_or_lt 0 v with hvp | hvn
    · have hdv : decide (v < 0) = false := by
        simp [not_lt.mpr hvp]
      rw [hdv, if_neg (by simp)]
      congr 1
      push_cast
      rw [abs_of_nonneg hvp]
    · have hdv : decide (v < 0) = true := by
        simp [hvn]
      rw [hdv, if_pos rfl]
      congr 1
      push_cast
      rw [abs_of_neg hvn]
      ring

/-- Witness for claim C9 at v = 7 with result scale 6 and input scale 4:
the average of the single value scales it by 10 ^ 2 to 700. -/
theorem c9_finalize_null_and_single_witness :
    (∀ st : SumState, st.isset = false → sumFinalize st = none) ∧
    (∀ st : AvgState, st.count = 0 → avgFinalize 6 4 st = none) ∧
    sumFinalize (sumOp sumInit 7) = some 7 ∧
    avgFinalize 6 4 (avgOp avgInit 7) = some (7 * 10 ^ (6 - 4)) :=
  c9_finalize_null_and_single 7 6 4 (by decide) (by decide) (by decide) (by decide)
